import Mathlib

/-!
Verification of the remote-object-backed disk layer (Azure Blob Storage disk)
of a columnar database storage engine.

Embedded components, translated from the C++ source:
* `WriteBufferFromBlobStorage` (src/IO/WriteBufferFromBlobStorage.cpp):
  the chunked upload buffer — `nextImpl` (flush), `finalizeImpl`, the
  destructor, and the backend stage-block / commit-block-list interaction.
* `DiskBlobStorage` (source file with unknown name):
  `checkUniqueId`, `removeFromRemoteFS`, `applyNewSettings`, `writeFile`,
  plus `BlobStoragePathKeeper` and `DiskBlobStorageSettings`.

The blob-storage backend (the Azure SDK client) is modelled explicitly:
staged blocks are an association list from block id to bytes, a committed
object is the ordered block-id list submitted by `CommitBlockList`, and
reading a committed object back resolves each id to its staged bytes.
-/

namespace BlobDisk

/-- A byte of appended content (content-agnostic, so plain `Nat`). -/
abbrev Byte := Nat

/-- The combined state of one `WriteBufferFromBlobStorage` instance and the
backend blob it writes to.

* `maxPart` is `max_single_part_upload_size`.
* `pending` are the bytes sitting in the working buffer (`offset()` bytes).
* `block_ids` is the buffer's accumulated ordered block-id list.
* `nextId` models `getRandomASCIIString(64)` block-id generation: each stage
  call draws a fresh token, modelled as a fresh natural number (the spec
  treats the 64-character random token as a per-upload unique id).
* `staged` is the backend's staged-block table: (block id, bytes), in
  staging order.
* `committedIds` is the block-id list committed by `CommitBlockList`
  (`none` while no commit has happened).
* `commitCalls` counts `CommitBlockList` calls issued to the backend.
* `finalized` is the buffer's `finalized` flag. -/
structure UploadState where
  maxPart : Nat
  pending : List Byte
  block_ids : List Nat
  nextId : Nat
  staged : List (Nat × List Byte)
  committedIds : Option (List Nat)
  commitCalls : Nat
  finalized : Bool
  deriving DecidableEq, Repr

/-- A freshly constructed buffer over an empty backend blob
(`WriteBufferFromBlobStorage` constructor with
`max_single_part_upload_size = P`). -/
def initBuf (P : Nat) : UploadState :=
  { maxPart := P, pending := [], block_ids := [], nextId := 0, staged := [],
    committedIds := none, commitCalls := 0, finalized := false }

/-- The part-cutting loop of `nextImpl`: repeatedly take
`min (remaining) maxPart` bytes off the front. Fuel-based recursion; the
fuel `l.length` suffices whenever `0 < P` (with `P = 0` the C++ loop would
not terminate either, since `part_len = 0` never advances `read`). -/
def splitPartsAux (P : Nat) : Nat → List Byte → List (List Byte)
  | _, [] => []
  | 0, _ => []
  | fuel + 1, l => l.take P :: splitPartsAux P fuel (l.drop P)

/-- The parts a single flush cuts the pending bytes into. -/
def splitParts (P : Nat) (l : List Byte) : List (List Byte) :=
  splitPartsAux P l.length l

/-- Source `WriteBufferFromBlobStorage::nextImpl`: if the working buffer is empty
(`!offset()`), do nothing; otherwise cut the pending bytes into parts of at
most `maxPart` bytes, stage each part under a freshly generated block id
(`StageBlock`), appending each id, in order, to `block_ids`. -/
def nextImpl (s : UploadState) : UploadState :=
  if s.pending = [] then s
  else
    let chunks := splitParts s.maxPart s.pending
    let ids := List.range' s.nextId chunks.length
    { s with pending := [],
             block_ids := s.block_ids ++ ids,
             nextId := s.nextId + chunks.length,
             staged := s.staged ++ ids.zip chunks }

/-- Source `WriteBufferFromBlobStorage::finalizeImpl`: flush any remaining bytes
(`next()`), then commit the accumulated ordered block-id list
(`CommitBlockList(block_ids)`) and set `finalized = true`. -/
def finalizeImpl (s : UploadState) : UploadState :=
  let s' := nextImpl s
  { s' with committedIds := some s'.block_ids,
            commitCalls := s'.commitCalls + 1,
            finalized := true }

/-- Modelled from the spec: `WriteBuffer::finalize()` — the base-class
entry point that the destructor and callers invoke — is not under src/;
per the spec it runs `finalizeImpl` at most once ("finalize is idempotent —
invoking it again after it already ran must be a no-op, never a second
commit"), guarded by the `finalized` flag that `finalizeImpl` sets. -/
def finalize (s : UploadState) : UploadState :=
  if s.finalized then s else finalizeImpl s

/-- Source `WriteBufferFromBlobStorage::~WriteBufferFromBlobStorage`: the
destructor calls `finalize()`. -/
def destructorRun (s : UploadState) : UploadState :=
  finalize s

/-- One caller-side operation on a live buffer: append bytes into the
working buffer (no network), or a flush cycle (`next()`, i.e. `nextImpl`,
triggered when the working buffer fills or explicitly). -/
inductive BufOp where
  | append (bs : List Byte)
  | flush
  deriving DecidableEq, Repr

/-- Apply one operation. -/
def applyOp (s : UploadState) : BufOp → UploadState
  | .append bs => { s with pending := s.pending ++ bs }
  | .flush => nextImpl s

/-- Run a sequence of append/flush operations. -/
def runOps (s : UploadState) (ops : List BufOp) : UploadState :=
  ops.foldl applyOp s

/-- The bytes an operation appends. -/
def opBytes : BufOp → List Byte
  | .append bs => bs
  | .flush => []

/-- The concatenation of all appended input across a sequence of
operations. -/
def appendedBytes (ops : List BufOp) : List Byte :=
  (ops.map opBytes).flatten

/-- Backend block resolution: the bytes staged under block id `i`
(first matching entry; `[]` if the id was never staged). -/
def findBlock (staged : List (Nat × List Byte)) (i : Nat) : List Byte :=
  match staged with
  | [] => []
  | (j, d) :: rest => if i = j then d else findBlock rest i

/-- Reading the committed object back: `none` if no commit-block-list call
succeeded (the object is not visible); otherwise the concatenation, in
committed-list order, of the bytes staged under each committed block id. -/
def readBack (s : UploadState) : Option (List Byte) :=
  s.committedIds.map (fun ids => (ids.map (findBlock s.staged)).flatten)

/-! ### Helper lemmas about part splitting -/

theorem splitPartsAux_join (P : Nat) (hP : 0 < P) :
    ∀ (fuel : Nat) (l : List Byte), l.length ≤ fuel →
      (splitPartsAux P fuel l).flatten = l := by
  intro fuel
  induction fuel with
  | zero =>
    intro l hl
    have : l = [] := List.length_eq_zero.mp (Nat.le_zero.mp hl)
    subst this
    simp [splitPartsAux]
  | succ n ih =>
    intro l hl
    match l with
    | [] => simp [splitPartsAux]
    | x :: xs =>
      have hdrop : ((x :: xs).drop P).length ≤ n := by
        simp only [List.length_drop, List.length_cons]
        have := List.length_cons x xs ▸ hl
        omega
      simp only [splitPartsAux, List.flatten_cons, ih _ hdrop,
        List.take_append_drop]

theorem splitPartsAux_le (P : Nat) :
    ∀ (fuel : Nat) (l : List Byte), ∀ c ∈ splitPartsAux P fuel l,
      c.length ≤ P := by
  intro fuel
  induction fuel with
  | zero =>
    intro l c hc
    match l with
    | [] => simp [splitPartsAux] at hc
    | x :: xs => simp [splitPartsAux] at hc
  | succ n ih =>
    intro l c hc
    match l with
    | [] => simp [splitPartsAux] at hc
    | x :: xs =>
      simp only [splitPartsAux, List.mem_cons] at hc
      rcases hc with h | h
      · subst h
        simp only [List.length_take, List.length_cons]
        omega
      · exact ih _ _ h

theorem splitPartsAux_count (P : Nat) (hP : 0 < P) :
    ∀ (fuel : Nat) (l : List Byte), l.length ≤ fuel →
      (splitPartsAux P fuel l).length = (l.length + P - 1) / P := by
  intro fuel
  induction fuel with
  | zero =>
    intro l hl
    have : l = [] := List.length_eq_zero.mp (Nat.le_zero.mp hl)
    subst this
    simp [splitPartsAux, Nat.div_eq_of_lt (by omega : P - 1 < P)]
  | succ n ih =>
    intro l hl
    match l with
    | [] => simp [splitPartsAux, Nat.div_eq_of_lt (by omega : P - 1 < P)]
    | x :: xs =>
      have hdrop : ((x :: xs).drop P).length ≤ n := by
        simp only [List.length_drop, List.length_cons]
        have := List.length_cons x xs ▸ hl
        omega
      have hrec := ih _ hdrop
      simp only [splitPartsAux, List.length_cons, hrec, List.length_drop,
        List.length_cons]
      rcases Nat.lt_or_ge (xs.length + 1) P with hlt | hge
      · have h1 : xs.length + 1 - P = 0 := by omega
        have h2 : (xs.length + 1 + P - 1) / P = 1 := by
          have ha : xs.length + 1 + P - 1 = (xs.length) + P := by omega
          rw [ha, Nat.add_div_right _ hP, Nat.div_eq_of_lt (by omega)]
        rw [h1, h2]
        simp [Nat.div_eq_of_lt (by omega : P - 1 < P)]
      · have h1 : xs.length + 1 + P - 1 = (xs.length + 1 - P + P - 1) + P := by
          omega
        rw [h1, Nat.add_div_right _ hP]

theorem splitParts_join (P : Nat) (hP : 0 < P) (l : List Byte) :
    (splitParts P l).flatten = l :=
  splitPartsAux_join P hP l.length l (le_refl _)

theorem splitParts_le (P : Nat) (l : List Byte) :
    ∀ c ∈ splitParts P l, c.length ≤ P :=
  splitPartsAux_le P l.length l

theorem splitParts_count (P : Nat) (hP : 0 < P) (l : List Byte) :
    (splitParts P l).length = (l.length + P - 1) / P :=
  splitPartsAux_count P hP l.length l (le_refl _)

/-! ### Helper lemmas about block lookup -/

theorem findBlock_eq_nil (m : List (Nat × List Byte)) (j : Nat)
    (h : ∀ p ∈ m, j ≠ p.1) : findBlock m j = [] := by
  induction m with
  | nil => rfl
  | cons p rest ih =>
    obtain ⟨k, d⟩ := p
    have hk : j ≠ k := h (k, d) (List.mem_cons_self _ _)
    simp only [findBlock, if_neg hk]
    exact ih (fun q hq => h q (List.mem_cons_of_mem _ hq))

theorem findBlock_append_of_fresh (l m : List (Nat × List Byte)) (j : Nat)
    (h : ∀ p ∈ m, j ≠ p.1) : findBlock (l ++ m) j = findBlock l j := by
  induction l with
  | nil => simpa [findBlock] using findBlock_eq_nil m j h
  | cons p rest ih =>
    obtain ⟨k, d⟩ := p
    by_cases hk : j = k
    · simp [findBlock, hk]
    · simp [findBlock, hk, ih]

/-- Looking up the freshly staged ids of one flush, over the extended
staged table, returns exactly the flushed chunks: the new ids
`n, n+1, ...` collide neither with the old table (all keys `< n`) nor
with one another. -/
theorem map_findBlock_zip_fresh :
    ∀ (chunks : List (List Byte)) (n : Nat) (staged : List (Nat × List Byte)),
      (∀ p ∈ staged, p.1 < n) →
      (List.range' n chunks.length).map
        (findBlock (staged ++ (List.range' n chunks.length).zip chunks))
        = chunks := by
  intro chunks
  induction chunks with
  | nil => intro n staged _; simp
  | cons c cs ih =>
    intro n staged hst
    have hhead :
        findBlock (staged ++ (n, c) :: (List.range' (n + 1) cs.length).zip cs) n
          = c := by
      rw [show staged ++ (n, c) :: (List.range' (n + 1) cs.length).zip cs
            = staged ++ ((n, c) :: (List.range' (n + 1) cs.length).zip cs)
          from rfl]
      induction staged with
      | nil => simp [findBlock]
      | cons p rest ihs =>
        obtain ⟨k, d⟩ := p
        have hk : n ≠ k := by
          have := hst (k, d) (List.mem_cons_self _ _)
          omega
        simp only [List.cons_append, findBlock, if_neg hk]
        exact ihs (fun q hq => hst q (List.mem_cons_of_mem _ hq))
    have htail :
        (List.range' (n + 1) cs.length).map
          (findBlock ((staged ++ [(n, c)])
            ++ (List.range' (n + 1) cs.length).zip cs)) = cs := by
      apply ih (n + 1) (staged ++ [(n, c)])
      intro p hp
      rcases List.mem_append.mp hp with h | h
      · have := hst p h; omega
      · simp only [List.mem_singleton] at h
        subst h; omega
    simp only [List.length_cons, List.range'_succ, List.zip_cons_cons,
      List.map_cons]
    rw [hhead,
      show staged ++ (n, c) :: (List.range' (n + 1) cs.length).zip cs
          = (staged ++ [(n, c)]) ++ (List.range' (n + 1) cs.length).zip cs
        by simp,
      htail]

/-! ### The flush/run invariant -/

/-- Well-formedness of an upload state: every staged block id and every id
in the buffer's block list was drawn before the current fresh-id counter. -/
def WF (s : UploadState) : Prop :=
  (∀ p ∈ s.staged, p.1 < s.nextId) ∧ (∀ i ∈ s.block_ids, i < s.nextId)

/-- The logical content accumulated so far: bytes already staged (resolved
through the backend, in block-list order) followed by the bytes still
pending in the working buffer. -/
def content (s : UploadState) : List Byte :=
  (s.block_ids.map (findBlock s.staged)).flatten ++ s.pending

theorem nextImpl_WF (s : UploadState) (h : WF s) : WF (nextImpl s) := by
  obtain ⟨h1, h2⟩ := h
  unfold nextImpl
  by_cases hp : s.pending = []
  · simpa [hp] using ⟨h1, h2⟩
  · simp only [if_neg hp]
    dsimp only [WF]
    constructor
    · intro p hp'
      rcases List.mem_append.mp hp' with h | h
      · have := h1 p h; omega
      · have := (List.of_mem_zip h).1
        have := List.mem_range'_1.mp this
        omega
    · intro i hi
      rcases List.mem_append.mp hi with h | h
      · have := h2 i h; omega
      · have := List.mem_range'_1.mp h
        omega

theorem nextImpl_content (s : UploadState) (hP : 0 < s.maxPart)
    (h : WF s) : content (nextImpl s) = content s := by
  obtain ⟨h1, h2⟩ := h
  unfold nextImpl
  by_cases hp : s.pending = []
  · simp [hp]
  · simp only [if_neg hp, content]
    have hold :
        s.block_ids.map
          (findBlock (s.staged
            ++ (List.range' s.nextId (splitParts s.maxPart s.pending).length).zip
                 (splitParts s.maxPart s.pending)))
          = s.block_ids.map (findBlock s.staged) := by
      apply List.map_congr_left
      intro i hi
      apply findBlock_append_of_fresh
      intro p hp'
      have := (List.of_mem_zip hp').1
      have := List.mem_range'_1.mp this
      have := h2 i hi
      omega
    have hnew := map_findBlock_zip_fresh (splitParts s.maxPart s.pending)
      s.nextId s.staged h1
    simp only [List.map_append, List.flatten_append, hold, hnew,
      splitParts_join s.maxPart hP s.pending, List.append_nil]

theorem nextImpl_fields (s : UploadState) :
    (nextImpl s).maxPart = s.maxPart ∧ (nextImpl s).finalized = s.finalized ∧
      (nextImpl s).committedIds = s.committedIds ∧
      (nextImpl s).commitCalls = s.commitCalls := by
  unfold nextImpl
  by_cases hp : s.pending = [] <;> simp [hp]

theorem applyOp_content (s : UploadState) (op : BufOp)
    (hP : 0 < s.maxPart) (h : WF s) :
    WF (applyOp s op) ∧ content (applyOp s op) = content s ++ opBytes op ∧
      (applyOp s op).maxPart = s.maxPart ∧
      (applyOp s op).finalized = s.finalized ∧
      (applyOp s op).committedIds = s.committedIds ∧
      (applyOp s op).commitCalls = s.commitCalls := by
  cases op with
  | append bs =>
    refine ⟨⟨h.1, h.2⟩, ?_, rfl, rfl, rfl, rfl⟩
    simp [applyOp, content, opBytes]
  | flush =>
    simp only [applyOp]
    obtain ⟨f1, f2, f3, f4⟩ := nextImpl_fields s
    refine ⟨nextImpl_WF s h, ?_, f1, f2, f3, f4⟩
    simpa [opBytes] using nextImpl_content s hP h

theorem nextImpl_pending (s : UploadState) : (nextImpl s).pending = [] := by
  unfold nextImpl
  by_cases hp : s.pending = [] <;> simp [hp]

theorem runOps_inv (ops : List BufOp) :
    ∀ (s : UploadState), 0 < s.maxPart → WF s →
      WF (runOps s ops) ∧
        content (runOps s ops) = content s ++ appendedBytes ops ∧
        (runOps s ops).maxPart = s.maxPart ∧
        (runOps s ops).finalized = s.finalized ∧
        (runOps s ops).committedIds = s.committedIds ∧
        (runOps s ops).commitCalls = s.commitCalls := by
  induction ops with
  | nil =>
    intro s hP hwf
    exact ⟨hwf, by simp [runOps, appendedBytes], rfl, rfl, rfl, rfl⟩
  | cons op rest ih =>
    intro s hP hwf
    obtain ⟨w, hc, hm, hf, hci, hcc⟩ := applyOp_content s op hP hwf
    obtain ⟨w', hc', hm', hf', hci', hcc'⟩ := ih (applyOp s op) (hm ▸ hP) w
    have hrun : runOps s (op :: rest) = runOps (applyOp s op) rest := rfl
    refine ⟨hrun ▸ w', ?_, by rw [hrun, hm', hm], by rw [hrun, hf', hf],
      by rw [hrun, hci', hci], by rw [hrun, hcc', hcc]⟩
    rw [hrun, hc', hc]
    simp [appendedBytes, List.append_assoc]

/-- Append/flush operations never touch the backend's committed state. -/
theorem runOps_no_commit (ops : List BufOp) :
    ∀ (s : UploadState),
      (runOps s ops).committedIds = s.committedIds ∧
        (runOps s ops).commitCalls = s.commitCalls := by
  induction ops with
  | nil => intro s; exact ⟨rfl, rfl⟩
  | cons op rest ih =>
    intro s
    obtain ⟨h1, h2⟩ := ih (applyOp s op)
    have hrun : runOps s (op :: rest) = runOps (applyOp s op) rest := rfl
    cases op with
    | append bs => exact ⟨hrun ▸ h1, hrun ▸ h2⟩
    | flush =>
      obtain ⟨_, _, f3, f4⟩ := nextImpl_fields s
      exact ⟨by rw [hrun]; exact h1.trans f3, by rw [hrun]; exact h2.trans f4⟩

theorem finalize_finalized (s : UploadState) :
    (finalize s).finalized = true := by
  unfold finalize finalizeImpl
  by_cases hf : s.finalized <;> simp [hf]

/-! ### Claims about the chunked upload buffer -/

/-- C1: for every sequence of appended byte chunks interleaved with any
number of flush cycles, finalizing commits the staged blocks in append
order and reading the committed object back yields exactly the
concatenation of all appended input (including zero appended bytes). -/
theorem claim_C1_round_trip (ops : List BufOp) (P : Nat) (hP : 0 < P) :
    readBack (finalize (runOps (initBuf P) ops)) = some (appendedBytes ops) := by
  have hwf : WF (initBuf P) := ⟨by simp [initBuf], by simp [initBuf]⟩
  obtain ⟨w, hc, hm, hf, _, _⟩ :=
    runOps_inv ops (initBuf P) (by simpa [initBuf] using hP) hwf
  set s := runOps (initBuf P) ops with hs
  have hcontent : content s = appendedBytes ops := by
    rw [hc]; simp [content, initBuf]
  have hfin : s.finalized = false := by
    rw [hf]; simp [initBuf]
  have hP' : 0 < s.maxPart := by rw [hm]; simpa [initBuf] using hP
  have hflushed : content (nextImpl s) = appendedBytes ops :=
    (nextImpl_content s hP' w).trans hcontent
  have hpend : (nextImpl s).pending = [] := nextImpl_pending s
  have hread :
      ((nextImpl s).block_ids.map (findBlock (nextImpl s).staged)).flatten
        = appendedBytes ops := by
    have := hflushed
    rw [content, hpend, List.append_nil] at this
    exact this
  rw [finalize, hfin]
  simp only [Bool.false_eq_true, if_false, finalizeImpl, readBack,
    Option.map_some']
  rw [hread]

/-- C1 witness. -/
theorem claim_C1_round_trip_witness :
    0 < 2 ∧
      readBack (finalize (runOps (initBuf 2)
          [BufOp.append [1, 2, 3], BufOp.flush, BufOp.append [4, 5]]))
        = some (appendedBytes
            [BufOp.append [1, 2, 3], BufOp.flush, BufOp.append [4, 5]]) :=
  ⟨by decide, claim_C1_round_trip
    [BufOp.append [1, 2, 3], BufOp.flush, BufOp.append [4, 5]] 2 (by decide)⟩

/-- C2: finalize is idempotent and commits at most once — a second
finalize (including the implicit one run by the destructor) changes
nothing: no second commit-block-list call, identical object content. -/
theorem claim_C2_finalize_idempotent (s : UploadState) :
    finalize (finalize s) = finalize s ∧
      (destructorRun (finalize s)).commitCalls = (finalize s).commitCalls ∧
      readBack (destructorRun (finalize s)) = readBack (finalize s) := by
  have h : finalize (finalize s) = finalize s := by
    show (if (finalize s).finalized then finalize s else finalizeImpl (finalize s))
        = finalize s
    rw [finalize_finalized]
    simp
  exact ⟨h, by rw [destructorRun, h], by rw [destructorRun, h]⟩

/-- C3: if finalize is never reached — the buffer only ever sees
append/flush operations — no commit-block-list call occurs and no object
under the buffer's identifier becomes visible (reading back gives
nothing); only staged, uncommitted blocks may remain on the backend. -/
theorem claim_C3_no_commit_without_finalize (ops : List BufOp) (P : Nat) :
    (runOps (initBuf P) ops).commitCalls = 0 ∧
      (runOps (initBuf P) ops).committedIds = none ∧
      readBack (runOps (initBuf P) ops) = none := by
  obtain ⟨h1, h2⟩ := runOps_no_commit ops (initBuf P)
  have hci : (runOps (initBuf P) ops).committedIds = none := by
    rw [h1]; rfl
  refine ⟨by rw [h2]; rfl, hci, ?_⟩
  rw [readBack, hci]
  rfl

/-- C6: one flush of `N` pending bytes with configured max part size
`P > 0` stages only blocks of length at most `P`, and stages exactly
`⌈N / P⌉ = (N + P - 1) / P` blocks. -/
theorem claim_C6_part_size_bound (s : UploadState) (hP : 0 < s.maxPart) :
    (∀ b ∈ (nextImpl s).staged.drop s.staged.length,
        b.2.length ≤ s.maxPart) ∧
      (nextImpl s).staged.length - s.staged.length
        = (s.pending.length + s.maxPart - 1) / s.maxPart := by
  unfold nextImpl
  by_cases hp : s.pending = []
  · simp [hp, List.drop_length, Nat.div_eq_of_lt (by omega : s.maxPart - 1 < s.maxPart)]
  · simp only [if_neg hp]
    rw [List.drop_left]
    constructor
    · intro b hb
      obtain ⟨i, d⟩ := b
      exact splitParts_le s.maxPart s.pending d (List.of_mem_zip hb).2
    · rw [List.length_append, List.length_zip, List.length_range',
        splitParts_count s.maxPart hP s.pending]
      simp only [Nat.min_self]
      generalize (s.pending.length + s.maxPart - 1) / s.maxPart = d
      omega

/-- A concrete upload state with three pending bytes and max part size 2,
used to witness the part-size bound. -/
def partBoundExampleState : UploadState :=
  { maxPart := 2, pending := [7, 8, 9], block_ids := [], nextId := 0,
    staged := [], committedIds := none, commitCalls := 0, finalized := false }

/-- C6 witness. -/
theorem claim_C6_part_size_bound_witness :
    0 < partBoundExampleState.maxPart ∧
      ((∀ b ∈ (nextImpl partBoundExampleState).staged.drop
            partBoundExampleState.staged.length,
          b.2.length ≤ partBoundExampleState.maxPart) ∧
        (nextImpl partBoundExampleState).staged.length
            - partBoundExampleState.staged.length
          = (partBoundExampleState.pending.length
              + partBoundExampleState.maxPart - 1)
              / partBoundExampleState.maxPart) :=
  ⟨by decide, claim_C6_part_size_bound partBoundExampleState (by decide)⟩

/-! ### The Remote Disk indirection layer (`DiskBlobStorage`) -/

/-- The storage error `removeFromRemoteFS` raises when the backend's
deletion-confirmed flag is false: `BLOB_STORAGE_ERROR`, "Failed to delete
file in Blob Storage: {path}" — it names the offending object id. -/
inductive StorageError where
  | deletionNotConfirmed (id : String)
  deriving DecidableEq, Repr

/-- The delete loop of `DiskBlobStorage::removeFromRemoteFS`, over the
paths of a `BlobStoragePathKeeper`. `del` is the backend's
`DeleteBlob(path).Value.Deleted` flag (the claim's scenario: the call
raises no transport exception). The result is the list of delete calls
actually issued, in order, and the error the loop raised, if any: on the
first path whose deletion is not confirmed the loop throws and issues no
further deletes. -/
def removeLoop (del : String → Bool) : List String → List String × Option StorageError
  | [] => ([], none)
  | p :: rest =>
    if del p then
      let r := removeLoop del rest
      (p :: r.1, r.2)
    else ([p], some (.deletionNotConfirmed p))

/-- The runtime type of the `RemoteFSPathKeeperPtr` argument handed to
`removeFromRemoteFS`: either the concrete `BlobStoragePathKeeper` with its
accumulated paths, or some other `RemoteFSPathKeeper` subclass. -/
inductive RemoteFSPathKeeperVal where
  | blobStoragePathKeeper (paths : List String)
  | otherKeeper
  deriving DecidableEq, Repr

/-- The `dynamic_cast<BlobStoragePathKeeper *>` performed by
`removeFromRemoteFS`: recovers the concrete keeper's paths, or null. -/
def dynCastToBlobKeeper : RemoteFSPathKeeperVal → Option (List String)
  | .blobStoragePathKeeper ps => some ps
  | .otherKeeper => none

/-- Source `DiskBlobStorage::removeFromRemoteFS`: downcast the keeper; if the
downcast succeeds, run the delete loop over its paths; if it yields null,
the whole body is skipped (`if (paths_keeper)`) — nothing is deleted and
no error is raised. -/
def removeFromRemoteFS (del : String → Bool) (keeper : RemoteFSPathKeeperVal) :
    List String × Option StorageError :=
  match dynCastToBlobKeeper keeper with
  | some ps => removeLoop del ps
  | none => ([], none)

/-- C4: if the backend confirms deletion of the first `i` ids of the batch
but reports `Deleted = false` for the id at position `i` (raising no
exception), `removeFromRemoteFS` fails with a storage error naming that
id, the issued delete calls are exactly the first `i + 1` ids (so the ids
before the offending one stay deleted), and no delete is issued for any id
after the offending one. -/
theorem claim_C4_deletion_not_confirmed (del : String → Bool)
    (paths : List String) (i : Nat) (hi : i < paths.length)
    (hfail : del (paths.getD i "") = false)
    (hpre : ∀ j, j < i → del (paths.getD j "") = true) :
    removeFromRemoteFS del (.blobStoragePathKeeper paths)
      = (paths.take (i + 1),
         some (.deletionNotConfirmed (paths.getD i ""))) := by
  simp only [removeFromRemoteFS, dynCastToBlobKeeper]
  induction paths generalizing i with
  | nil => simp at hi
  | cons p rest ih =>
    cases i with
    | zero =>
      have hp : del p = false := by simpa using hfail
      simp [removeLoop, hp]
    | succ i' =>
      have hp : del p = true := by simpa using hpre 0 (Nat.succ_pos i')
      have hi' : i' < rest.length := by simpa using hi
      have hfail' : del (rest.getD i' "") = false := by simpa using hfail
      have hpre' : ∀ j, j < i' → del (rest.getD j "") = true := fun j hj => by
        simpa using hpre (j + 1) (Nat.succ_lt_succ hj)
      have hrec := ih i' hi' hfail' hpre'
      simp only [removeLoop, if_pos hp, hrec, List.take_succ_cons,
        List.getD_cons_succ]

/-- C4 witness. -/
theorem claim_C4_deletion_not_confirmed_witness :
    1 < (["a", "b", "c"] : List String).length ∧
      (fun s => !(s == "b")) (["a", "b", "c"].getD 1 "") = false ∧
      (∀ j, j < 1 → (fun s => !(s == "b")) (["a", "b", "c"].getD j "") = true) ∧
      removeFromRemoteFS (fun s => !(s == "b"))
          (.blobStoragePathKeeper ["a", "b", "c"])
        = (["a", "b", "c"].take 2,
           some (.deletionNotConfirmed (["a", "b", "c"].getD 1 ""))) :=
  ⟨by decide, by decide, by decide,
    claim_C4_deletion_not_confirmed (fun s => !(s == "b")) ["a", "b", "c"] 1
      (by decide) (by decide) (by decide)⟩

/-- C9: if the keeper handed to `removeFromRemoteFS` is not the concrete
`BlobStoragePathKeeper` type (the runtime downcast yields null), the call
deletes nothing, raises no error, and returns as if it succeeded. -/
theorem claim_C9_foreign_keeper_silently_ignored (del : String → Bool)
    (keeper : RemoteFSPathKeeperVal)
    (h : dynCastToBlobKeeper keeper = none) :
    removeFromRemoteFS del keeper = ([], none) := by
  simp [removeFromRemoteFS, h]

/-- C9 witness. -/
theorem claim_C9_foreign_keeper_silently_ignored_witness :
    dynCastToBlobKeeper .otherKeeper = none ∧
      removeFromRemoteFS (fun _ => true) .otherKeeper = ([], none) :=
  ⟨by decide,
    claim_C9_foreign_keeper_silently_ignored (fun _ => true) .otherKeeper
      (by decide)⟩

/-- Structure `DiskBlobStorageSettings` (the Settings Snapshot), field for field from
the source constructor. -/
structure DiskBlobStorageSettings where
  max_single_part_upload_size : Nat
  min_bytes_for_seek : Nat
  max_single_read_retries : Int
  max_single_download_retries : Int
  thread_pool_size : Int
  deriving DecidableEq, Repr

/-- The asynchronous executor backing threadpool reads, reduced to the one
field `applyNewSettings` touches (`setMaxThreads`). -/
structure AsyncExecutorState where
  maxThreads : Int
  deriving DecidableEq, Repr

/-- The `DiskBlobStorage` state `applyNewSettings` operates on: the disk
name, the current Settings Snapshot (`current_settings`, an atomically
swappable cell modelled as the value it holds), and the executor —
`some` when `dynamic_cast<AsyncExecutor*>(&getExecutor())` succeeds. -/
structure DiskState where
  name : String
  current_settings : DiskBlobStorageSettings
  executor : Option AsyncExecutorState
  deriving DecidableEq, Repr

/-- Source `DiskBlobStorage::applyNewSettings`: build a new Settings Snapshot via
`settings_getter(config, "storage_configuration.disks." + name, context)`,
swap it into `current_settings`, and, if an `AsyncExecutor` backs reads,
set its thread count to the freshly swapped snapshot's
`thread_pool_size`. -/
def applyNewSettings {Config : Type}
    (settings_getter : Config → String → DiskBlobStorageSettings)
    (config : Config) (disk : DiskState) : DiskState :=
  let new_settings :=
    settings_getter config ("storage_configuration.disks." ++ disk.name)
  { disk with
      current_settings := new_settings,
      executor := disk.executor.map
        (fun e => { e with maxThreads := new_settings.thread_pool_size }) }

/-- C7: `applyNewSettings` installs exactly the snapshot built from the
configuration section for the disk's name, and when an asynchronous
executor backs reads, that executor's worker-thread count becomes the new
snapshot's thread-pool-size in the same call (when there is no async
executor, nothing else changes). -/
theorem claim_C7_reconfigure {Config : Type}
    (settings_getter : Config → String → DiskBlobStorageSettings)
    (config : Config) (disk : DiskState) :
    (applyNewSettings settings_getter config disk).current_settings
        = settings_getter config
            ("storage_configuration.disks." ++ disk.name) ∧
      (∀ e, disk.executor = some e →
        (applyNewSettings settings_getter config disk).executor
          = some { e with
              maxThreads :=
                (applyNewSettings settings_getter config
                    disk).current_settings.thread_pool_size }) ∧
      (disk.executor = none →
        (applyNewSettings settings_getter config disk).executor = none) := by
  refine ⟨rfl, ?_, ?_⟩
  · intro e he
    simp [applyNewSettings, he]
  · intro he
    simp [applyNewSettings, he]

/-- C7 witness. -/
theorem claim_C7_reconfigure_witness :
    (applyNewSettings (fun (_ : Unit) _ => ⟨1, 2, 3, 4, 5⟩) ()
          ⟨"d", ⟨0, 0, 0, 0, 0⟩, some ⟨9⟩⟩).current_settings
        = (fun (_ : Unit) _ => (⟨1, 2, 3, 4, 5⟩ : DiskBlobStorageSettings)) ()
            ("storage_configuration.disks." ++
              (⟨"d", ⟨0, 0, 0, 0, 0⟩, some ⟨9⟩⟩ : DiskState).name) ∧
      (∀ e, (⟨"d", ⟨0, 0, 0, 0, 0⟩, some ⟨9⟩⟩ : DiskState).executor = some e →
        (applyNewSettings (fun (_ : Unit) _ => ⟨1, 2, 3, 4, 5⟩) ()
            ⟨"d", ⟨0, 0, 0, 0, 0⟩, some ⟨9⟩⟩).executor
          = some { e with
              maxThreads :=
                (applyNewSettings (fun (_ : Unit) _ => ⟨1, 2, 3, 4, 5⟩) ()
                    ⟨"d", ⟨0, 0, 0, 0, 0⟩,
                      some ⟨9⟩⟩).current_settings.thread_pool_size }) ∧
      ((⟨"d", ⟨0, 0, 0, 0, 0⟩, some ⟨9⟩⟩ : DiskState).executor = none →
        (applyNewSettings (fun (_ : Unit) _ => ⟨1, 2, 3, 4, 5⟩) ()
            ⟨"d", ⟨0, 0, 0, 0, 0⟩, some ⟨9⟩⟩).executor = none) :=
  claim_C7_reconfigure (fun (_ : Unit) _ => ⟨1, 2, 3, 4, 5⟩) ()
    ⟨"d", ⟨0, 0, 0, 0, 0⟩, some ⟨9⟩⟩

/-- Modelled from the spec: `getRandomASCIIString`
(`Common/getRandomASCIIString.h`, not under src/) returns a string of
`len` random ASCII characters; the random source is modelled as a
generator `g` supplying the number drawn at each position, reduced to an
ASCII code point. -/
def getRandomASCIIString (len : Nat) (g : Nat → Nat) : String :=
  ⟨(List.range len).map (fun i => Char.ofNat (g i % 128))⟩

/-- The blob path `DiskBlobStorage::writeFile` allocates for a fresh
write: `path + "_" + getRandomASCIIString(8)`. -/
def writeFileBlobPath (path : String) (g : Nat → Nat) : String :=
  path ++ "_" ++ getRandomASCIIString 8 g

/-- C8: every `writeFile` call allocates a remote object id equal to the
logical path, an underscore, and an 8-character random ASCII suffix. -/
theorem claim_C8_blob_naming (path : String) (g : Nat → Nat) :
    ∃ suffix : String,
      writeFileBlobPath path g = path ++ "_" ++ suffix ∧
        suffix.length = 8 ∧ ∀ c ∈ suffix.data, c.toNat < 128 := by
  refine ⟨getRandomASCIIString 8 g, rfl, ?_, ?_⟩
  · simp [getRandomASCIIString, String.length]
  · intro c hc
    simp only [getRandomASCIIString, List.mem_map, List.mem_range] at hc
    obtain ⟨i, _, rfl⟩ := hc
    have hlt : g i % 128 < 128 := Nat.mod_lt _ (by omega)
    have hv : (g i % 128).isValidChar := Or.inl (by omega)
    simp only [Char.ofNat, dif_pos hv]
    simp [Char.ofNatAux, Char.toNat, UInt32.toNat, BitVec.toNat_ofNatLt]
    omega

/-! ### Remote-object existence check (`checkUniqueId`) -/

/-- Backend semantics of the flat `ListBlobs` listing with a `Prefix`
option, modelled from the Azure contract the source relies on: the stored
names carrying the requested prefix, in lexicographical name order. -/
def azureListByPrefix (container : List String) (pfx : String) : List String :=
  List.insertionSort (fun a b : String => a ≤ b)
    (container.filter (fun nm => pfx.toList.isPrefixOf nm.toList))

/-- The first page of that listing under `PageSizeHint = hint` — the page
the paged response exposes as `.Blobs`. -/
def azureFirstPage (container : List String) (pfx : String) (hint : Nat) :
    List String :=
  (azureListByPrefix container pfx).take hint

/-- Source `DiskBlobStorage::checkUniqueId` (existsRemotely): list blobs with
`Prefix = id` and `PageSizeHint = 1`, then scan the returned page for a
blob whose name equals `id` exactly. -/
def checkUniqueId (container : List String) (id : String) : Bool :=
  (azureFirstPage container id 1).any (fun nm => id == nm)

/-- A list is lexicographically below any proper extension of itself. -/
theorem lex_lt_append {l t : List Char} (h : t ≠ []) :
    List.Lex (· < ·) l (l ++ t) := by
  induction l with
  | nil =>
    cases t with
    | nil => exact absurd rfl h
    | cons c cs => exact List.Lex.nil
  | cons a l' ih => exact List.Lex.cons ih

/-- A string is lexicographically at most any string it is a prefix of. -/
theorem le_of_toList_isPrefixOf (a b : String)
    (h : a.toList.isPrefixOf b.toList = true) : a ≤ b := by
  have hpre : a.toList <+: b.toList := List.isPrefixOf_iff_prefix.mp h
  obtain ⟨t, ht⟩ := hpre
  by_cases h0 : t = []
  · subst h0
    rw [List.append_nil] at ht
    exact le_of_eq (congrArg String.mk (by simpa [String.toList] using ht))
  · have hlex : List.Lex (· < ·) a.toList b.toList := by
      rw [← ht]
      exact lex_lt_append h0
    have hlt : a.toList < b.toList := hlex
    exact le_of_lt (String.lt_iff_toList_lt.mpr hlt)

/-- C5: `existsRemotely(id)` returns true exactly when an object named
exactly `id` is stored: a longer name merely sharing `id` as a prefix does
not count, and an exact match is never missed — `id` is lexicographically
first among all names it prefixes, so it always lands on the first page
even with page-size hint 1. -/
theorem claim_C5_exists_exact_match (container : List String) (id : String) :
    checkUniqueId container id = true ↔ id ∈ container := by
  unfold checkUniqueId azureFirstPage azureListByPrefix
  constructor
  · intro h
    obtain ⟨nm, hnm, heq⟩ := List.any_eq_true.mp h
    have hid : id = nm := by simpa using heq
    subst hid
    have h1 : id ∈ List.insertionSort (fun a b : String => a ≤ b)
        (container.filter (fun nm => id.toList.isPrefixOf nm.toList)) :=
      List.mem_of_mem_take hnm
    have h2 : id ∈ container.filter (fun nm => id.toList.isPrefixOf nm.toList) :=
      ((List.perm_insertionSort _ _).mem_iff).mp h1
    exact (List.mem_filter.mp h2).1
  · intro h
    have hidp : id.toList.isPrefixOf id.toList = true :=
      List.isPrefixOf_iff_prefix.mpr (List.prefix_refl _)
    have hmemf : id ∈ container.filter
        (fun nm => id.toList.isPrefixOf nm.toList) :=
      List.mem_filter.mpr ⟨h, hidp⟩
    have hmems : id ∈ List.insertionSort (fun a b : String => a ≤ b)
        (container.filter (fun nm => id.toList.isPrefixOf nm.toList)) :=
      ((List.perm_insertionSort _ _).mem_iff).mpr hmemf
    cases hcase : List.insertionSort (fun a b : String => a ≤ b)
        (container.filter (fun nm => id.toList.isPrefixOf nm.toList)) with
    | nil => rw [hcase] at hmems; simp at hmems
    | cons hd tl =>
      have hsorted := List.sorted_insertionSort (fun a b : String => a ≤ b)
        (container.filter (fun nm => id.toList.isPrefixOf nm.toList))
      rw [hcase] at hsorted hmems
      have hhd_le : ∀ b ∈ tl, hd ≤ b := (List.sorted_cons.mp hsorted).1
      have hhd_mem : hd ∈ container.filter
          (fun nm => id.toList.isPrefixOf nm.toList) :=
        ((List.perm_insertionSort _ _).mem_iff).mp
          (hcase ▸ List.mem_cons_self hd tl)
      have hpfx : id.toList.isPrefixOf hd.toList = true :=
        (List.mem_filter.mp hhd_mem).2
      have hle : id ≤ hd := le_of_toList_isPrefixOf id hd hpfx
      have hge : hd ≤ id := by
        rcases List.mem_cons.mp hmems with rfl | hin
        · exact le_refl _
        · exact hhd_le _ hin
      have hhd : hd = id := le_antisymm hge hle
      subst hhd
      simp

/-- A paged `ListBlobs` response as the code sees it: the page the
response object exposes (`.Blobs`), and whatever further pages the backend
would serve on continuation — which the source never requests. -/
structure ListBlobsResponseModel where
  currentPage : List String
  laterPages : List (List String)
  deriving DecidableEq, Repr

/-- The scan loop of `checkUniqueId` applied to a paged response: iterate
the names of the exposed page only, looking for an exact match. -/
def checkUniqueIdOnResponse (resp : ListBlobsResponseModel) (id : String) :
    Bool :=
  resp.currentPage.any (fun nm => id == nm)

/-- C10: `checkUniqueId` inspects only the single first page of the
listing: it answers true exactly when that page holds a name equal to
`id`, its answer ignores the later pages entirely, and an exact match that
the backend returns only on a later page yields false. -/
theorem claim_C10_first_page_only (resp : ListBlobsResponseModel)
    (id : String) :
    (checkUniqueIdOnResponse resp id = true ↔ id ∈ resp.currentPage) ∧
      checkUniqueIdOnResponse resp id
        = checkUniqueIdOnResponse ⟨resp.currentPage, []⟩ id ∧
      (id ∉ resp.currentPage → id ∈ resp.laterPages.flatten →
        checkUniqueIdOnResponse resp id = false) := by
  have hiff : checkUniqueIdOnResponse resp id = true ↔ id ∈ resp.currentPage := by
    unfold checkUniqueIdOnResponse
    rw [List.any_eq_true]
    constructor
    · rintro ⟨nm, hnm, heq⟩
      have : id = nm := by simpa using heq
      exact this ▸ hnm
    · intro h
      exact ⟨id, h, by simp⟩
  refine ⟨hiff, rfl, ?_⟩
  intro hnot _
  cases hb : checkUniqueIdOnResponse resp id with
  | false => rfl
  | true => exact absurd (hiff.mp hb) hnot

/-- C10 witness: `"foo"` stored, but only on a later page — the check
misses it. -/
theorem claim_C10_first_page_only_witness :
    (checkUniqueIdOnResponse ⟨["foobar"], [["foo"]]⟩ "foo" = true ↔
        "foo" ∈ (⟨["foobar"], [["foo"]]⟩ : ListBlobsResponseModel).currentPage) ∧
      checkUniqueIdOnResponse ⟨["foobar"], [["foo"]]⟩ "foo"
        = checkUniqueIdOnResponse
            ⟨(⟨["foobar"], [["foo"]]⟩ : ListBlobsResponseModel).currentPage, []⟩
            "foo" ∧
      ("foo" ∉ (⟨["foobar"], [["foo"]]⟩ : ListBlobsResponseModel).currentPage →
        "foo" ∈ (⟨["foobar"], [["foo"]]⟩ : ListBlobsResponseModel).laterPages.flatten →
        checkUniqueIdOnResponse ⟨["foobar"], [["foo"]]⟩ "foo" = false) :=
  claim_C10_first_page_only ⟨["foobar"], [["foo"]]⟩ "foo"

end BlobDisk
